import Mathlib

/-!
Verification development for the sampling profiler in `sampro/sampro.py`.

The module keeps two tables:
  * `rooted_leaf_counts` : defaultdict mapping a root code object to a
    dict mapping (leaf code object, leaf line number) to a sample count;
  * `stack_counts` : dict mapping a flattened stack tuple to a sample count,
    together with `max_stacks` (default 10000) and `skipped_stack_samples`.

A thread's call stack is modelled as a list of frames in OUTERMOST-FIRST
order (the order the spec's Stack Snapshot Provider contract uses).  The
Python code receives the innermost frame object and walks `f_back`
outwards, so its traversal visits our list in reverse: the flattened
key tuple it builds (`stack.extend((cur.f_code, cur.f_lineno))`) lists
the innermost frame first and the outermost frame last.

Python dicts are modelled as association lists in insertion order;
updating an existing key keeps its position, a new key is appended.
A `sample()` call that raises an exception is modelled by `none`.
-/

/-- A Python code object: identity plus the attributes the profiler reads
(`co_filename`, `co_name`).  Distinct code objects may share both
attributes, so a separate identity field keeps them distinguishable. -/
structure CodeObj where
  ident : Nat
  filename : String
  name : String
deriving DecidableEq, Repr

/-- One captured frame: `(code object, current line number)`. -/
structure Frame where
  code : CodeObj
  lineno : Nat
deriving DecidableEq, Repr

/-- An element of the flattened stack tuple built by `sample()`: the tuple
interleaves code objects and line numbers. -/
inductive StackEl where
  | code (c : CodeObj)
  | line (n : Nat)
deriving DecidableEq, Repr

/-- `d.get(k)` on an association-list dict (first matching key). -/
def alGet {α β : Type} [DecidableEq α] : List (α × β) → α → Option β
  | [], _ => none
  | (a, v) :: t, k => if a = k then some v else alGet t k

/-- Dict update with a default: if `k` is present its value becomes `f v`
(position preserved); otherwise `(k, f d)` is appended.  `alUpd m k 0 (· + n)`
is Python's `m.setdefault(k, 0); m[k] += n` and also `defaultdict` access
followed by `+= n`. -/
def alUpd {α β : Type} [DecidableEq α] : List (α × β) → α → β → (β → β) → List (α × β)
  | [], k, d, f => [(k, f d)]
  | (a, v) :: t, k, d, f => if a = k then (a, f v) :: t else (a, v) :: alUpd t k d f

/-- Counter increment `m[k] += n` (with default 0), as used for both tables. -/
def alIncr {α : Type} [DecidableEq α] (m : List (α × Nat)) (k : α) (n : Nat) : List (α × Nat) :=
  alUpd m k 0 (· + n)

/-- Plain assignment `m[k] = v`: replace in place or append. -/
def alSet {α β : Type} [DecidableEq α] (m : List (α × β)) (k : α) (v : β) : List (α × β) :=
  alUpd m k v (fun _ => v)

/-- Sum of a counter dict's values. -/
def sumVals {α : Type} (m : List (α × Nat)) : Nat :=
  (m.map Prod.snd).sum

/-- The inner dict of `rooted_leaf_counts`: (leaf code, leaf line) ↦ count. -/
abbrev LeafCounts := List ((CodeObj × Nat) × Nat)

/-- Value-level state of `_BaseSampler` (sampro.py lines 39-44). -/
structure AggState where
  rooted : List (CodeObj × LeafCounts)
  stackCounts : List (List StackEl × Nat)
  maxStacks : Nat
  skipped : Nat
  sampleCount : Nat
deriving DecidableEq, Repr

/-- The two tuple entries one frame contributes to the flattened stack key
(`stack.extend((cur.f_code, cur.f_lineno))`, sampro.py line 56). -/
def frameEls (f : Frame) : List StackEl :=
  [StackEl.code f.code, StackEl.line f.lineno]

/-- The flattened stack key built by `sample()`.  The source walks from the
innermost frame outwards via `f_back`, so with our outermost-first stack
`fs` the tuple lists `fs` in reverse: innermost frame first, root last. -/
def stackKey (fs : List Frame) : List StackEl :=
  fs.reverse.flatMap frameEls

/-- Processing of one thread's stack inside the `for` loop of `sample()`
(sampro.py lines 53-65).  A zero-frame stack leaves the local variable
`last` unbound, so line 58 raises `UnboundLocalError`: modelled as `none`.
For a nonempty outermost-first stack, `last` is the outermost (root) frame
and `frame` the innermost (leaf) frame. -/
def sampleThread (s : AggState) (fs : List Frame) : Option AggState :=
  match fs with
  | [] => none
  | rootF :: rest =>
    let leafF := (rootF :: rest).getLast (List.cons_ne_nil rootF rest)
    let rooted' := alUpd s.rooted rootF.code []
        (fun inn => alIncr inn (leafF.code, leafF.lineno) 1)
    let key := stackKey (rootF :: rest)
    match alGet s.stackCounts key with
    | some _ =>
      some { s with rooted := rooted',
                    stackCounts := alUpd s.stackCounts key 0 (· + 1) }
    | none =>
      let skipped' :=
        if s.stackCounts.length > s.maxStacks then s.skipped + 1 else s.skipped
      some { s with rooted := rooted',
                    stackCounts := s.stackCounts ++ [(key, 1)],
                    skipped := skipped' }

/-- The thread loop of `sample()`: threads are processed in order; an
exception aborts the call (modelled by `none`). -/
def sampleLoop : AggState → List (List Frame) → Option AggState
  | s, [] => some s
  | s, fs :: rest =>
    match sampleThread s fs with
    | none => none
    | some s' => sampleLoop s' rest

/-- `_BaseSampler.sample()` (sampro.py lines 46-65) applied to one snapshot.
The snapshot is the list of per-thread stacks after the source's own
`frame is sampler_frame` filter (the sampler's own frame is excluded). -/
def sample (s : AggState) (snap : List (List Frame)) : Option AggState :=
  sampleLoop { s with sampleCount := s.sampleCount + 1 } snap

/-- `_BaseSampler.live_data_copy()` (sampro.py lines 67-71), value level:
it returns the current contents of both tables. -/
def live_data_copy (s : AggState) : List (CodeObj × LeafCounts) × List (List StackEl × Nat) :=
  (s.rooted, s.stackCounts)

/-- Inner loop of `rooted_samples_by_file()` (sampro.py lines 81-85): group
one root's leaf counts by `code.co_filename`, accumulating with
`setdefault(..., 0)` followed by `+= count`. -/
def fileGroup (counts : LeafCounts) : List (String × Nat) :=
  counts.foldl (fun cur p => alIncr cur p.1.1.filename p.2) []

/-- `_BaseSampler.rooted_samples_by_file()` (sampro.py lines 73-87). -/
def rooted_samples_by_file (s : AggState) : List (CodeObj × List (String × Nat)) :=
  (live_data_copy s).1.map (fun p => (p.1, fileGroup p.2))

/-- Inner loop of `rooted_samples_by_line()` (sampro.py lines 99-104): keep
one root's leaf entries whose file matches, then assign `cur[lineno] = count`
(plain assignment, not accumulation). -/
def lineGroup (filename : String) (counts : LeafCounts) : List (Nat × Nat) :=
  counts.foldl
    (fun cur p => if p.1.1.filename = filename then alSet cur p.1.2 p.2 else cur) []

/-- `_BaseSampler.rooted_samples_by_line(filename)` (sampro.py lines 89-106). -/
def rooted_samples_by_line (s : AggState) (filename : String) :
    List (CodeObj × List (Nat × Nat)) :=
  (live_data_copy s).1.map (fun p => (p.1, lineGroup filename p.2))

/-- The folded textual key `flame_map()` computes for one stack tuple
(sampro.py lines 130-138).  `stack[-2]` needs at least two tuple elements
and must be a code object for `.co_name`; a violation raises (`none`).
The per-frame token is `root_name ++ "\x60" ++ co_filename ++ "\x60" ++ co_name`,
built only from the code-object elements of the tuple (the `type(...) in
(int, long)` test skips the line numbers). -/
def flameKey (key : List StackEl) : Option String :=
  if key.length < 2 then none
  else
    match key.get? (key.length - 2) with
    | some (StackEl.code rootC) =>
      let toks := key.filterMap (fun e =>
        match e with
        | StackEl.code c => some (rootC.name ++ "\x60" ++ c.filename ++ "\x60" ++ c.name)
        | StackEl.line _ => none)
      some (String.intercalate ";" toks)
    | _ => none

/-- The accumulation loop of `flame_map()` (sampro.py lines 129-140):
`flame_map.setdefault(flame_key, 0); flame_map[flame_key] += count`. -/
def flameLoop : List (List StackEl × Nat) → List (String × Nat) → Option (List (String × Nat))
  | [], acc => some acc
  | (k, c) :: rest, acc =>
    match flameKey k with
    | none => none
    | some fk => flameLoop rest (alIncr acc fk c)

/-- `_BaseSampler.flame_map()` (sampro.py lines 122-141). -/
def flame_map (s : AggState) : Option (List (String × Nat)) :=
  flameLoop (live_data_copy s).2 []

/-- State of `ThreadedSampler` (sampro.py lines 154-159): the inherited
aggregator state plus the `stopping` event, the `started` flag and whether
the background thread has been spawned. -/
structure ThreadedState where
  agg : AggState
  stopping : Bool
  started : Bool
  threadSpawned : Bool
deriving DecidableEq, Repr

/-- `ThreadedSampler.start()` (sampro.py lines 161-168): raises
`ValueError` when already started, otherwise sets `started` and spawns
the background thread. -/
def threadedStart (s : ThreadedState) : Except String ThreadedState :=
  if s.started then Except.error "Sampler.start() may only be called once"
  else Except.ok { s with started := true, threadSpawned := true }

/-- `ThreadedSampler.stop()` (sampro.py lines 170-171). -/
def threadedStop (s : ThreadedState) : ThreadedState :=
  { s with stopping := true }

/-- A value an interrupt-signal handler slot can hold. -/
inductive HandlerV where
  | dfl
  | samplerHandler
  | other (n : Nat)
deriving DecidableEq, Repr

/-- Process-global signal state for the one signal class a `SignalSampler`
uses: the currently registered handler and whether the interval timer is
armed (a nonzero `setitimer` interval). -/
structure SigGlobal where
  handler : HandlerV
  timerArmed : Bool
deriving DecidableEq, Repr

/-- State of `SignalSampler` (sampro.py lines 204-222): aggregator state,
the `started` and `stopping` flags and the saved previous handler
(`self.rollback`, assigned by `start()`). -/
structure SigState where
  agg : AggState
  started : Bool
  stopping : Bool
  rollback : HandlerV
deriving DecidableEq, Repr

/-- `SignalSampler.start()` (sampro.py lines 224-230): a no-op when already
started; otherwise saves the previous handler in `rollback`, registers the
sampler's handler and arms the timer.  The Python method never raises after
construction; the `Except` result records that (it is always `ok`). -/
def sigStart (p : SigState × SigGlobal) : Except String (SigState × SigGlobal) :=
  if p.1.started then Except.ok p
  else Except.ok
    ({ p.1 with started := true, rollback := p.2.handler },
     { handler := HandlerV.samplerHandler, timerArmed := true })

/-- `SignalSampler.stop()` (sampro.py lines 232-237): a no-op when never
started; otherwise sets `stopping`, disarms the timer and restores the
saved handler. -/
def sigStop (p : SigState × SigGlobal) : SigState × SigGlobal :=
  if p.1.started then
    ({ p.1 with stopping := true },
     { handler := p.1.rollback, timerArmed := false })
  else p

/-- `SignalSampler._resample()` (sampro.py lines 239-243): returns at once
when `stopping` is set; otherwise samples and re-arms the one-shot timer.
If `sample()` raises, the exception propagates out of the handler and the
timer is not re-armed; that case keeps the pre-call state here. -/
def sigResample (p : SigState × SigGlobal) (snap : List (List Frame)) :
    SigState × SigGlobal :=
  if p.1.stopping then p
  else
    match sample p.1.agg snap with
    | some a => ({ p.1 with agg := a }, { p.2 with timerArmed := true })
    | none => p

/-- An externally triggered event on a `SignalSampler` instance: a
`start()` or `stop()` call, or a timer interrupt delivering `_resample`
with some snapshot. -/
inductive SigOp where
  | startOp
  | stopOp
  | resampleOp (snap : List (List Frame))

/-- Apply one event.  A `start()` call never raises after construction, so
its `Except` wrapper is unwrapped here. -/
def sigStep (p : SigState × SigGlobal) : SigOp → SigState × SigGlobal
  | SigOp.startOp =>
    match sigStart p with
    | Except.ok q => q
    | Except.error _ => p
  | SigOp.stopOp => sigStop p
  | SigOp.resampleOp snap => sigResample p snap

/-- Run a sequence of events on a `SignalSampler` instance. -/
def sigRun (p : SigState × SigGlobal) : List SigOp → SigState × SigGlobal
  | [] => p
  | op :: rest => sigRun (sigStep p op) rest

/-- Lock-relevant primitive operations, for checking the locking
discipline of the cooperative-loop variant. -/
inductive LAct where
  | acquire
  | release
  | tableWrite
  | tableRead
deriving DecidableEq, Repr

/-- The lock-relevant operations one `sample()` pass performs on the two
aggregation tables (sampro.py lines 46-65), for a pass observing one
thread: the write to `rooted_leaf_counts` (line 58) and the write to
`stack_counts` (line 63 or 65).  The method never touches
`self.data_lock` (created at line 157 and referenced nowhere else). -/
def sampleLockTrace : List LAct :=
  [LAct.tableWrite, LAct.tableWrite]

/-- The lock-relevant operations of `live_data_copy()` (sampro.py lines
67-71): the read of `rooted_leaf_counts` (line 69) and the read of
`stack_counts` (line 71); `self.data_lock` is never acquired. -/
def liveCopyLockTrace : List LAct :=
  [LAct.tableRead, LAct.tableRead]

/-- Check, tracking the lock-hold depth, that every table access in a
trace happens while the lock is held. -/
def lockedFrom : Nat → List LAct → Bool
  | _, [] => true
  | d, LAct.acquire :: t => lockedFrom (d + 1) t
  | d, LAct.release :: t => lockedFrom (d - 1) t
  | d, LAct.tableWrite :: t => decide (0 < d) && lockedFrom d t
  | d, LAct.tableRead :: t => decide (0 < d) && lockedFrom d t

/-- Whether every table access in a trace is protected by the lock. -/
def tableOpsLocked (tr : List LAct) : Bool :=
  lockedFrom 0 tr

/-!
Heap-level model, for the claim that the value returned by
`live_data_copy()` is independent of further mutation.  Python dicts are
mutable objects; the copy is `{k: dict(v) for ...}` for the rooted table
and `dict(self.stack_counts)` for the stack table, so the copy consists of
freshly allocated dict objects whose entries (code objects, tuples,
integers) are immutable.  The heap maps addresses to dict objects; the
aggregator holds the addresses of its outer rooted dict and its stack
dict, and the rooted dict maps each root to the ADDRESS of its inner
dict, mirroring Python's reference structure.
-/

/-- A heap-allocated dict object. -/
inductive HObj where
  | innerD (m : LeafCounts)
  | rootedD (m : List (CodeObj × Nat))
  | stackD (m : List (List StackEl × Nat))
deriving DecidableEq, Repr

/-- The heap: a list of (address, object) cells; lookup takes the first
matching address, allocation appends a cell at a fresh address. -/
abbrev Heap := List (Nat × HObj)

/-- Read the object at an address. -/
def lookupH : Heap → Nat → Option HObj
  | [], _ => none
  | (a, o) :: t, k => if a = k then some o else lookupH t k

/-- Overwrite the object at an address (first occurrence); a no-op when
the address is absent. -/
def updateH : Heap → Nat → HObj → Heap
  | [], _, _ => []
  | (a, o) :: t, k, v => if a = k then (k, v) :: t else (a, o) :: updateH t k v

/-- A fresh address: one past the largest allocated address. -/
def freshA (h : Heap) : Nat :=
  (h.map Prod.fst).foldr Nat.max 0 + 1

/-- The scalar fields of the aggregator together with the addresses of its
two table objects. -/
structure HAgg where
  rootedAddr : Nat
  stackAddr : Nat
  maxStacks : Nat
  skipped : Nat
  sampleCount : Nat
deriving DecidableEq, Repr

/-- Heap-level `self.rooted_leaf_counts[last.f_code]` (sampro.py line 58):
`defaultdict` access returns the inner dict for the root, allocating an
empty inner dict (and extending the outer dict) when the root is new.
`none` models a heap whose cells do not have the expected shapes, which
has no Python counterpart. -/
def touchRoot (g : HAgg) (h : Heap) (rc : CodeObj) : Option (Nat × Heap) :=
  match lookupH h g.rootedAddr with
  | some (HObj.rootedD rd) =>
    match alGet rd rc with
    | some ia => some (ia, h)
    | none =>
      let ia := freshA h
      let h' := h ++ [(ia, HObj.innerD [])]
      some (ia, updateH h' g.rootedAddr (HObj.rootedD (rd ++ [(rc, ia)])))
  | _ => none

/-- Heap-level `... [(frame.f_code, frame.f_lineno)] += 1` on the inner
dict at address `ia` (sampro.py line 58). -/
def leafIncr (h : Heap) (ia : Nat) (leaf : CodeObj × Nat) : Option Heap :=
  match lookupH h ia with
  | some (HObj.innerD m) => some (updateH h ia (HObj.innerD (alIncr m leaf 1)))
  | _ => none

/-- Heap-level stack-count update (sampro.py lines 59-65). -/
def stackIncr (g : HAgg) (h : Heap) (key : List StackEl) : Option (HAgg × Heap) :=
  match lookupH h g.stackAddr with
  | some (HObj.stackD sd) =>
    match alGet sd key with
    | some _ =>
      some (g, updateH h g.stackAddr (HObj.stackD (alUpd sd key 0 (· + 1))))
    | none =>
      let g' := if sd.length > g.maxStacks then { g with skipped := g.skipped + 1 } else g
      some (g', updateH h g.stackAddr (HObj.stackD (sd ++ [(key, 1)])))
  | _ => none

/-- Heap-level processing of one thread inside `sample()`'s loop.  The
boolean records whether the iteration raised; mutations made before the
raise are kept, matching Python exception semantics. -/
def sampleThreadH (g : HAgg) (h : Heap) (fs : List Frame) : Bool × HAgg × Heap :=
  match fs with
  | [] => (true, g, h)
  | rootF :: rest =>
    let leafF := (rootF :: rest).getLast (List.cons_ne_nil rootF rest)
    match touchRoot g h rootF.code with
    | none => (true, g, h)
    | some (ia, h2) =>
      match leafIncr h2 ia (leafF.code, leafF.lineno) with
      | none => (true, g, h2)
      | some h3 =>
        match stackIncr g h3 (stackKey (rootF :: rest)) with
        | none => (true, g, h3)
        | some (g', h4) => (false, g', h4)

/-- Heap-level thread loop of `sample()`: a raise aborts the loop but the
mutations already performed persist. -/
def sampleLoopH : HAgg → Heap → List (List Frame) → Bool × HAgg × Heap
  | g, h, [] => (false, g, h)
  | g, h, fs :: rest =>
    match sampleThreadH g h fs with
    | (true, g', h') => (true, g', h')
    | (false, g', h') => sampleLoopH g' h' rest

/-- Heap-level `sample()` (sampro.py lines 46-65). -/
def sampleH (g : HAgg) (h : Heap) (snap : List (List Frame)) : Bool × HAgg × Heap :=
  sampleLoopH { g with sampleCount := g.sampleCount + 1 } h snap

/-- Run a sequence of `sample()` calls, one snapshot each. -/
def runSamplesH (g : HAgg) (h : Heap) : List (List (List Frame)) → HAgg × Heap
  | [] => (g, h)
  | sn :: rest =>
    let r := sampleH g h sn
    runSamplesH r.2.1 r.2.2 rest

/-- The loop of `live_data_copy()` over the rooted table (sampro.py lines
68-70): for each root, allocate a fresh dict holding a copy of the inner
dict's entries.  Returns the copied outer table (root ↦ fresh address),
the list of fresh inner addresses, and the extended heap. -/
def copyInners : List (CodeObj × Nat) → Heap → Option (List (CodeObj × Nat) × List Nat × Heap)
  | [], h => some ([], [], h)
  | (k, a) :: t, h =>
    match lookupH h a with
    | some (HObj.innerD m) =>
      let a' := freshA h
      match copyInners t (h ++ [(a', HObj.innerD m)]) with
      | some (rd', as, h') => some ((k, a') :: rd', a' :: as, h')
      | none => none
    | _ => none

/-- The addresses of the objects returned by a heap-level
`live_data_copy()`: the fresh outer rooted dict, the fresh stack dict and
the fresh inner dicts. -/
structure CopyOut where
  rootedCopyAddr : Nat
  innerCopyAddrs : List Nat
  stackCopyAddr : Nat
deriving DecidableEq, Repr

/-- All addresses belonging to the returned copy. -/
def copyAddrs (c : CopyOut) : List Nat :=
  c.rootedCopyAddr :: c.stackCopyAddr :: c.innerCopyAddrs

/-- Heap-level `live_data_copy()` (sampro.py lines 67-71): fresh inner
dict copies, a fresh outer dict pointing at them, and a fresh copy of the
stack dict. -/
def liveDataCopyH (g : HAgg) (h : Heap) : Option (CopyOut × Heap) :=
  match lookupH h g.rootedAddr with
  | some (HObj.rootedD rd) =>
    match copyInners rd h with
    | some (rd', as, h1) =>
      let a1 := freshA h1
      let h2 := h1 ++ [(a1, HObj.rootedD rd')]
      match lookupH h2 g.stackAddr with
      | some (HObj.stackD sd) =>
        let a2 := freshA h2
        some ({ rootedCopyAddr := a1, innerCopyAddrs := as, stackCopyAddr := a2 },
              h2 ++ [(a2, HObj.stackD sd)])
      | _ => none
    | none => none
  | _ => none

/-- Shape check on the aggregator's heap cells: the rooted address holds a
rooted dict all of whose inner addresses hold inner dicts, and the stack
address holds a stack dict. -/
def heapWF (g : HAgg) (h : Heap) : Bool :=
  (match lookupH h g.rootedAddr with
   | some (HObj.rootedD rd) =>
     rd.all (fun p =>
       match lookupH h p.2 with
       | some (HObj.innerD _) => true
       | _ => false)
   | _ => false) &&
  (match lookupH h g.stackAddr with
   | some (HObj.stackD _) => true
   | _ => false)

/-- Modelled from the spec, for comparison only: the spec describes a
Stack Counts key as the stack "outermost (root) first, innermost last",
which as a flattened tuple is the outermost-first flattening. -/
def specStackKeyOutermostFirst (fs : List Frame) : List StackEl :=
  fs.flatMap frameEls

/-- Whether `k` is the stack key of some nonempty stack in the snapshot. -/
def keyFromSnap (snap : List (List Frame)) (k : List StackEl) : Bool :=
  snap.any (fun fs => !fs.isEmpty && decide (k = stackKey fs))

/-- Example code objects used for concrete evaluations. -/
def cA : CodeObj := { ident := 0, filename := "a.py", name := "fa" }

/-- Second example code object. -/
def cB : CodeObj := { ident := 1, filename := "b.py", name := "fb" }

/-- Two distinct code objects in the same file (for example two lambdas
defined on the same source line). -/
def cF1 : CodeObj := { ident := 2, filename := "f.py", name := "g1" }

/-- Second code object sharing file `f.py`. -/
def cF2 : CodeObj := { ident := 3, filename := "f.py", name := "g2" }

/-- The aggregator state right after `_BaseSampler.__init__` (sampro.py
lines 39-44). -/
def initAgg : AggState :=
  { rooted := [], stackCounts := [], maxStacks := 10000, skipped := 0, sampleCount := 0 }

/-- An aggregator configured with `max_stacks = 0` that already holds one
distinct stack key, so the stack table is over its configured maximum. -/
def s0c1 : AggState :=
  { rooted := [], stackCounts := [(stackKey [{ code := cA, lineno := 1 }], 1)],
    maxStacks := 0, skipped := 0, sampleCount := 0 }

/-- An aggregator whose one root has two leaf entries in the same file on
the same line through different code objects, with counts 2 and 3. -/
def s0c5 : AggState :=
  { rooted := [(cA, [((cF1, 10), 2), ((cF2, 10), 3)])], stackCounts := [],
    maxStacks := 10000, skipped := 0, sampleCount := 5 }

/-- An aggregator holding two stack keys that fold to the same flame key:
the same code objects, sampled at different line numbers. -/
def sC6 : AggState :=
  { rooted := [],
    stackCounts :=
      [(stackKey [{ code := cA, lineno := 1 }, { code := cB, lineno := 2 }], 4),
       (stackKey [{ code := cA, lineno := 7 }, { code := cB, lineno := 9 }], 6)],
    maxStacks := 10000, skipped := 0, sampleCount := 10 }

/-- A `SignalSampler` instance that has been started. -/
def sgStarted : SigState :=
  { agg := initAgg, started := true, stopping := false, rollback := HandlerV.dfl }

/-- Global signal state while the sampler's handler is registered. -/
def gStarted : SigGlobal :=
  { handler := HandlerV.samplerHandler, timerArmed := true }

/-- A freshly constructed `SignalSampler` instance. -/
def sgFresh : SigState :=
  { agg := initAgg, started := false, stopping := false, rollback := HandlerV.dfl }

/-- Global signal state before any sampler is started. -/
def gIdle : SigGlobal :=
  { handler := HandlerV.dfl, timerArmed := false }

/-- A freshly started `ThreadedSampler` instance. -/
def thStarted : ThreadedState :=
  { agg := initAgg, stopping := false, started := true, threadSpawned := true }

/-- A small well-formed heap for the heap-level model: the rooted dict at
address 1 (with one root whose inner dict lives at address 3) and the
stack dict at address 2. -/
def h0c8 : Heap :=
  [(1, HObj.rootedD [(cA, 3)]), (2, HObj.stackD []), (3, HObj.innerD [((cA, 5), 2)])]

/-- The aggregator owning the two tables of `h0c8`. -/
def g0c8 : HAgg :=
  { rootedAddr := 1, stackAddr := 2, maxStacks := 10000, skipped := 0, sampleCount := 0 }

/-- Separation of a set of copy addresses `C` from the aggregator's
mutable objects: every copy address is allocated, the aggregator's two
table addresses are not copy addresses, and no inner-dict address
reachable from the aggregator's rooted table is a copy address. -/
def Indep (C : List Nat) (g : HAgg) (h : Heap) : Prop :=
  (∀ a ∈ C, (lookupH h a).isSome) ∧
  g.rootedAddr ∉ C ∧
  g.stackAddr ∉ C ∧
  ∀ rd, lookupH h g.rootedAddr = some (HObj.rootedD rd) → ∀ p ∈ rd, p.2 ∉ C

/-- The copy returned by `liveDataCopyH g0c8 h0c8`. -/
def c8out : CopyOut :=
  { rootedCopyAddr := 5, innerCopyAddrs := [4], stackCopyAddr := 6 }

/-- The heap after `liveDataCopyH g0c8 h0c8`: the original three cells
plus the fresh inner copy (4), the fresh outer rooted copy (5) and the
fresh stack copy (6). -/
def h1c8 : Heap :=
  [(1, HObj.rootedD [(cA, 3)]), (2, HObj.stackD []), (3, HObj.innerD [((cA, 5), 2)]),
   (4, HObj.innerD [((cA, 5), 2)]), (5, HObj.rootedD [(cA, 4)]), (6, HObj.stackD [])]

/-!  Lemmas about the association-list dict operations.  -/

theorem alGet_alUpd_self {α β : Type} [DecidableEq α]
    (m : List (α × β)) (k : α) (d : β) (f : β → β) :
    alGet (alUpd m k d f) k = some (f ((alGet m k).getD d)) := by
  induction m with
  | nil => simp [alGet, alUpd]
  | cons p t ih =>
    obtain ⟨a, v⟩ := p
    by_cases hak : a = k
    · subst hak
      simp [alGet, alUpd]
    · simp [alGet, alUpd, hak, ih]

theorem alGet_alUpd_ne {α β : Type} [DecidableEq α]
    (m : List (α × β)) (k t : α) (d : β) (f : β → β) (hne : t ≠ k) :
    alGet (alUpd m k d f) t = alGet m t := by
  induction m with
  | nil => simp [alGet, alUpd, Ne.symm hne]
  | cons p l ih =>
    obtain ⟨a, v⟩ := p
    by_cases hak : a = k
    · subst hak
      simp [alGet, alUpd, Ne.symm hne]
    · simp [alGet, alUpd, hak, ih]

theorem sumVals_cons {α : Type} (p : α × Nat) (m : List (α × Nat)) :
    sumVals (p :: m) = p.2 + sumVals m := by
  simp [sumVals]

theorem sumVals_alIncr {α : Type} [DecidableEq α] (m : List (α × Nat)) (k : α) (n : Nat) :
    sumVals (alIncr m k n) = sumVals m + n := by
  induction m with
  | nil => simp [alIncr, alUpd, sumVals]
  | cons p t ih =>
    obtain ⟨a, v⟩ := p
    by_cases hak : a = k
    · subst hak
      simp [alIncr, alUpd, sumVals]
      omega
    · simp [alIncr, alUpd, hak, sumVals] at ih ⊢
      omega

theorem alGet_isSome_alUpd {α β : Type} [DecidableEq α]
    (m : List (α × β)) (k t : α) (d : β) (f : β → β)
    (h : (alGet (alUpd m k d f) t).isSome) :
    (alGet m t).isSome ∨ t = k := by
  by_cases hk : t = k
  · exact Or.inr hk
  · rw [alGet_alUpd_ne m k t d f hk] at h
    exact Or.inl h

theorem alGet_isSome_append {α β : Type} [DecidableEq α]
    (m : List (α × β)) (k : α) (v : β) (t : α)
    (h : (alGet (m ++ [(k, v)]) t).isSome) :
    (alGet m t).isSome ∨ t = k := by
  induction m with
  | nil =>
    by_cases hkt : k = t
    · exact Or.inr hkt.symm
    · simp [alGet, hkt] at h
  | cons p l ih =>
    obtain ⟨a, w⟩ := p
    by_cases hat : a = t
    · subst hat
      simp [alGet]
    · simp [alGet, hat] at h ⊢
      exact ih h

/-!  Claim C1.  The spec says that once the stack table is at its
configured maximum, a novel stack increments the skipped counter and is
NOT inserted.  In the source (sampro.py lines 60-63) the insertion
`self.stack_counts[stack] = 1` is unconditional: the overflow test only
increments `skipped_stack_samples` and then falls through to the insert,
so the table grows past the maximum.  This contradicts the module's own
docstring ("this data structure is bounded", sampro.py lines 15-17).  -/

/-- Claim C1 (code bug): with `max_stacks = 0` and one distinct key
already stored, sampling a novel one-frame stack increments the skipped
counter to 1 AND still inserts the new key, leaving 2 distinct keys in a
table whose configured maximum is 0. -/
theorem claim_c1_overflow_still_inserts :
    sample s0c1 [[{ code := cB, lineno := 2 }]] =
      some { rooted := [(cB, [((cB, 2), 1)])],
             stackCounts :=
               [(stackKey [{ code := cA, lineno := 1 }], 1),
                (stackKey [{ code := cB, lineno := 2 }], 1)],
             maxStacks := 0, skipped := 1, sampleCount := 1 } := by
  decide

/-!  Claim C2.  The spec says `sample()` never raises and treats a
zero-frame stack as a no-op.  In the source a zero-frame stack skips the
`while cur` loop, so line 58 reads the unbound local `last` and raises
`UnboundLocalError` — not a no-op.  For stacks with at least one frame
the pass indeed completes.  -/

/-- Claim C2 counterexample: on a snapshot containing one thread with a
zero-frame stack, `sample()` raises (modelled by `none`) instead of
treating the thread as a no-op. -/
theorem claim_c2_empty_stack_raises :
    sample initAgg [[]] = none := by
  decide

theorem sampleThread_isSome (s : AggState) (fs : List Frame) (h : fs ≠ []) :
    (sampleThread s fs).isSome := by
  match fs with
  | [] => exact absurd rfl h
  | rootF :: rest =>
    simp only [sampleThread]
    cases alGet s.stackCounts (stackKey (rootF :: rest)) with
    | none => simp
    | some c => simp

theorem sampleLoop_isSome (snap : List (List Frame)) :
    ∀ s : AggState, (∀ fs ∈ snap, fs ≠ []) → (sampleLoop s snap).isSome := by
  induction snap with
  | nil => intro s _; simp [sampleLoop]
  | cons fs rest ih =>
    intro s h
    have h1 : fs ≠ [] := h fs (by simp)
    have h2 := sampleThread_isSome s fs h1
    simp only [sampleLoop]
    cases hst : sampleThread s fs with
    | none => rw [hst] at h2; simp at h2
    | some s' => exact ih s' (fun g hg => h g (by simp [hg]))

/-- Claim C2, amended: `sample()` completes without raising whenever every
captured stack has at least one frame (which is the case for every
normally-running thread); a zero-frame stack instead raises. -/
theorem claim_c2_nonempty_stacks_never_raise (s : AggState)
    (snap : List (List Frame)) (h : ∀ fs ∈ snap, fs ≠ []) :
    (sample s snap).isSome := by
  exact sampleLoop_isSome snap _ h

/-- Witness for claim C2 at a concrete input. -/
theorem claim_c2_witness :
    (sample initAgg [[{ code := cA, lineno := 3 }]]).isSome :=
  claim_c2_nonempty_stacks_never_raise initAgg
    [[{ code := cA, lineno := 3 }]] (by simp)

/-!  Claim C3.  The spec says both trigger strategies fail with an
InvalidState error on a second `start()`.  `ThreadedSampler.start`
(sampro.py lines 161-168) indeed raises `ValueError`; but
`SignalSampler.start` (lines 224-230) begins with `if self.started:
return` — a silent idempotent no-op, not an error.  -/

/-- Claim C3 counterexample: a second `start()` on an already-started
`SignalSampler` returns normally with the state unchanged instead of
failing with an InvalidState error. -/
theorem claim_c3_signal_double_start_no_error :
    sigStart (sgStarted, gStarted) = Except.ok (sgStarted, gStarted) := by
  rfl

/-- Claim C3, amended: a second `start()` on a `ThreadedSampler` raises
`ValueError` leaving the state unchanged, while a second `start()` on a
`SignalSampler` is a silent no-op returning the unchanged state; in both
variants a second call never begins new sampling activity. -/
theorem claim_c3_double_start_behavior :
    (∀ t : ThreadedState, t.started = true →
      threadedStart t = Except.error "Sampler.start() may only be called once") ∧
    (∀ p : SigState × SigGlobal, p.1.started = true → sigStart p = Except.ok p) := by
  constructor
  · intro t ht
    simp [threadedStart, ht]
  · intro p hp
    simp [sigStart, hp]

/-- Witness for claim C3 at concrete already-started instances. -/
theorem claim_c3_witness :
    threadedStart thStarted =
      Except.error "Sampler.start() may only be called once" ∧
    sigStart (sgStarted, gStarted) = Except.ok (sgStarted, gStarted) :=
  ⟨claim_c3_double_start_behavior.1 thStarted rfl,
   claim_c3_double_start_behavior.2 (sgStarted, gStarted) rfl⟩

/-!  Claim C5.  The spec says `rooted_samples_by_line(f)` maps each line
to the TOTAL count of that root's leaf entries at that line in file `f`.
The source (sampro.py line 104) uses plain assignment `cur[lineno] =
count` — unlike the `setdefault`-and-add accumulation of
`rooted_samples_by_file` (lines 84-85) and `hotspots` (lines 117-118) —
so when two different code objects in the same file contribute entries at
the same line, the later entry overwrites the earlier one.  -/

/-- Claim C5 (code bug): for a root with leaf entries ((g1@f.py, line 10),
count 2) and ((g2@f.py, line 10), count 3), the returned per-line mapping
holds 3 — the last entry's count — not the total 5 the spec requires. -/
theorem claim_c5_by_line_overwrites :
    rooted_samples_by_line s0c5 "f.py" = [(cA, [(10, 3)])] ∧
    sumVals [((cF1, 10), 2), ((cF2, 10), 3)] = 5 := by
  constructor
  · decide
  · decide

/-!  Claim C9.  The spec requires every table mutation of `sample()` and
every read of `live_data_copy()` in the cooperative-loop variant to run
under a shared mutual-exclusion lock.  `ThreadedSampler.__init__`
(sampro.py line 157) does create `self.data_lock`, but that attribute is
never referenced again: neither `sample()` nor `live_data_copy()` (nor
`_run`) acquires it.  -/

/-- Claim C9 (code bug): the table accesses of one `sample()` pass and of
`live_data_copy()` are not protected by the lock — their traces contain
table writes and reads but no acquire at all. -/
theorem claim_c9_no_lock_protection :
    tableOpsLocked sampleLockTrace = false ∧
    tableOpsLocked liveCopyLockTrace = false ∧
    LAct.acquire ∉ sampleLockTrace ∧
    LAct.acquire ∉ liveCopyLockTrace ∧
    LAct.tableWrite ∈ sampleLockTrace ∧
    LAct.tableRead ∈ liveCopyLockTrace := by
  decide

/-!  Claim C7: `rooted_samples_by_file()` preserves each root's total.  -/

theorem sumVals_fileGroup_fold (counts : LeafCounts) :
    ∀ acc : List (String × Nat),
      sumVals (counts.foldl (fun cur p => alIncr cur p.1.1.filename p.2) acc) =
        sumVals acc + sumVals counts := by
  induction counts with
  | nil => intro acc; simp [sumVals]
  | cons p rest ih =>
    intro acc
    simp only [List.foldl_cons]
    rw [ih (alIncr acc p.1.1.filename p.2), sumVals_alIncr, sumVals_cons]
    omega

/-- Claim C7 (confirmed): for every root, the by-file counts returned by
`rooted_samples_by_file()` sum to exactly the sum of that root's Rooted
Leaf Counts entries. -/
theorem claim_c7_by_file_totals (s : AggState) :
    (rooted_samples_by_file s).map (fun p => (p.1, sumVals p.2)) =
      s.rooted.map (fun p => (p.1, sumVals p.2)) := by
  simp only [rooted_samples_by_file, live_data_copy, List.map_map]
  apply List.map_congr_left
  intro p _
  simp only [Function.comp_apply, fileGroup]
  rw [sumVals_fileGroup_fold p.2 []]
  simp [sumVals]

/-!  Claim C6: `flame_map()` totals and collision handling.  -/

theorem flameLoop_spec (l : List (List StackEl × Nat)) :
    ∀ acc : List (String × Nat), (∀ p ∈ l, (flameKey p.1).isSome) →
      ∃ m, flameLoop l acc = some m ∧
        sumVals m = sumVals acc + sumVals l ∧
        ∀ t, (alGet m t).getD 0 =
          (alGet acc t).getD 0 +
            sumVals (l.filter (fun p => flameKey p.1 = some t)) := by
  induction l with
  | nil =>
    intro acc _
    exact ⟨acc, rfl, by simp [sumVals], fun t => by simp [sumVals]⟩
  | cons p rest ih =>
    intro acc hall
    obtain ⟨k, c⟩ := p
    have hk : (flameKey k).isSome := hall (k, c) (by simp)
    obtain ⟨fk, hfk⟩ := Option.isSome_iff_exists.mp hk
    obtain ⟨m, hm, hsum, hget⟩ :=
      ih (alIncr acc fk c) (fun q hq => hall q (by simp [hq]))
    refine ⟨m, ?_, ?_, ?_⟩
    · simp [flameLoop, hfk, hm]
    · rw [hsum, sumVals_alIncr, sumVals_cons]
      omega
    · intro t
      rw [hget t]
      by_cases htk : t = fk
      · subst htk
        have h1 : (alGet (alIncr acc t c) t).getD 0 = (alGet acc t).getD 0 + c := by
          simp [alIncr, alGet_alUpd_self]
        rw [h1]
        simp [List.filter_cons, hfk, sumVals_cons]
        omega
      · have h1 : alGet (alIncr acc fk c) t = alGet acc t := by
          simp only [alIncr]
          exact alGet_alUpd_ne acc fk t 0 _ htk
        rw [h1]
        simp [List.filter_cons, hfk, Ne.symm htk]

/-- Claim C6 (confirmed): whenever every stored stack key folds to a flame
key (true of every key `sample()` can insert), `flame_map()` succeeds, its
counts sum to exactly the sum of all Stack Counts values, and each flame
key's count is the summed count of all raw stacks folding to it. -/
theorem claim_c6_flame_map_total (s : AggState)
    (h : ∀ p ∈ s.stackCounts, (flameKey p.1).isSome) :
    (flame_map s).isSome ∧
    sumVals ((flame_map s).getD []) = sumVals s.stackCounts ∧
    ∀ t, (alGet ((flame_map s).getD []) t).getD 0 =
      sumVals (s.stackCounts.filter (fun p => flameKey p.1 = some t)) := by
  obtain ⟨m, hm, hsum, hget⟩ := flameLoop_spec s.stackCounts [] h
  have hfm : flame_map s = some m := by
    simp only [flame_map, live_data_copy]
    exact hm
  refine ⟨by simp [hfm], ?_, fun t => ?_⟩
  · rw [hfm]
    simpa [sumVals] using hsum
  · rw [hfm]
    simpa [alGet] using hget t

/-- Witness for claim C6: a table with two distinct raw stacks (same code
objects, different line numbers) that fold to the same flame key. -/
theorem claim_c6_witness :
    (flame_map sC6).isSome ∧
    sumVals ((flame_map sC6).getD []) = sumVals sC6.stackCounts :=
  ⟨(claim_c6_flame_map_total sC6 (by decide)).1,
   (claim_c6_flame_map_total sC6 (by decide)).2.1⟩

/-!  Claim C4.  The spec says every Stack Counts key lists the frames
outermost (root) first and innermost last.  The source builds the key by
walking `f_back` from the INNERMOST frame (sampro.py lines 54-57), so the
flattened tuple lists the innermost frame first and the root last — the
reverse of the claimed order.  The source's own `flame_map` confirms
this: it takes the root as `stack[-2]` (line 130), the LAST code object
of the tuple.  -/

/-- Claim C4 counterexample: sampling the two-frame stack with root
`fa@a.py` line 1 and leaf `fb@b.py` line 2 stores the key
(leaf code, leaf line, root code, root line) — innermost first — which
differs from the spec's outermost-first flattening of the same stack. -/
theorem claim_c4_key_not_outermost_first :
    sample initAgg [[{ code := cA, lineno := 1 }, { code := cB, lineno := 2 }]] =
      some { rooted := [(cA, [((cB, 2), 1)])],
             stackCounts :=
               [([StackEl.code cB, StackEl.line 2, StackEl.code cA, StackEl.line 1], 1)],
             maxStacks := 10000, skipped := 0, sampleCount := 1 } ∧
    [StackEl.code cB, StackEl.line 2, StackEl.code cA, StackEl.line 1] ≠
      specStackKeyOutermostFirst
        [{ code := cA, lineno := 1 }, { code := cB, lineno := 2 }] := by
  decide

theorem sampleThread_keys (s : AggState) (fs : List Frame) (s' : AggState)
    (hst : sampleThread s fs = some s') (k : List StackEl)
    (hk : (alGet s'.stackCounts k).isSome) :
    (alGet s.stackCounts k).isSome ∨ (fs ≠ [] ∧ k = stackKey fs) := by
  match fs with
  | [] => simp [sampleThread] at hst
  | rootF :: rest =>
    cases hg : alGet s.stackCounts (stackKey (rootF :: rest)) with
    | some c =>
      simp only [sampleThread, hg] at hst
      obtain rfl := Option.some.inj hst
      rcases alGet_isSome_alUpd s.stackCounts (stackKey (rootF :: rest)) k 0 _ hk with
        h1 | h1
      · exact Or.inl h1
      · exact Or.inr ⟨List.cons_ne_nil rootF rest, h1⟩
    | none =>
      simp only [sampleThread, hg] at hst
      obtain rfl := Option.some.inj hst
      rcases alGet_isSome_append s.stackCounts (stackKey (rootF :: rest)) 1 k hk with
        h1 | h1
      · exact Or.inl h1
      · exact Or.inr ⟨List.cons_ne_nil rootF rest, h1⟩

theorem sampleLoop_keys (snap : List (List Frame)) :
    ∀ s s' : AggState, sampleLoop s snap = some s' →
      ∀ k, (alGet s'.stackCounts k).isSome →
        (alGet s.stackCounts k).isSome ∨ keyFromSnap snap k = true := by
  induction snap with
  | nil =>
    intro s s' h k hk
    simp [sampleLoop] at h
    subst h
    exact Or.inl hk
  | cons fs rest ih =>
    intro s s' h k hk
    simp only [sampleLoop] at h
    cases hst : sampleThread s fs with
    | none => rw [hst] at h; simp at h
    | some s1 =>
      rw [hst] at h
      rcases ih s1 s' h k hk with h1 | h1
      · rcases sampleThread_keys s fs s1 hst k h1 with h2 | ⟨hne, hkey⟩
        · exact Or.inl h2
        · right
          subst hkey
          simp [keyFromSnap, List.any_cons, hne]
      · right
        simp [keyFromSnap, List.any_cons] at h1 ⊢
        exact Or.inr h1

/-- Claim C4, amended: every key of the Stack Counts table is either one
already present before the pass or the flattened `(code, line)` sequence
of one sampled stack in INNERMOST-first order (`stackKey` reverses the
outermost-first stack), the innermost frame first and the root last. -/
theorem claim_c4_keys_innermost_first (s : AggState) (snap : List (List Frame))
    (s' : AggState) (hs : sample s snap = some s') (k : List StackEl)
    (hk : (alGet s'.stackCounts k).isSome) :
    (alGet s.stackCounts k).isSome ∨ keyFromSnap snap k = true :=
  sampleLoop_keys snap { s with sampleCount := s.sampleCount + 1 } s' hs k hk

/-- Witness for claim C4 at a concrete sampled stack. -/
theorem claim_c4_witness :
    (alGet initAgg.stackCounts
        (stackKey [{ code := cA, lineno := 1 }, { code := cB, lineno := 2 }])).isSome ∨
      keyFromSnap [[{ code := cA, lineno := 1 }, { code := cB, lineno := 2 }]]
        (stackKey [{ code := cA, lineno := 1 }, { code := cB, lineno := 2 }]) = true :=
  claim_c4_keys_innermost_first initAgg
    [[{ code := cA, lineno := 1 }, { code := cB, lineno := 2 }]]
    { rooted := [(cA, [((cB, 2), 1)])],
      stackCounts :=
        [(stackKey [{ code := cA, lineno := 1 }, { code := cB, lineno := 2 }], 1)],
      maxStacks := 10000, skipped := 0, sampleCount := 1 }
    (by decide)
    (stackKey [{ code := cA, lineno := 1 }, { code := cB, lineno := 2 }])
    (by decide)

/-!  Claim C10: a stopped `SignalSampler` is permanently stopped.  After
`start()` then `stop()`, `started` remains `True` so a later `start()`
returns at line 227 without touching the signal handler or the timer, and
`stopping` remains `True` so `_resample` returns at line 241 without
sampling or re-arming.  -/

theorem sigStep_fixed (s : SigState) (g : SigGlobal)
    (h1 : s.started = true) (h2 : s.stopping = true)
    (h3 : g.timerArmed = false) (h4 : g.handler = s.rollback)
    (op : SigOp) : sigStep (s, g) op = (s, g) := by
  cases op with
  | startOp => simp [sigStep, sigStart, h1]
  | stopOp =>
    simp only [sigStep, sigStop, h1, if_true]
    cases s
    cases g
    simp_all
  | resampleOp snap => simp [sigStep, sigResample, h2]

theorem sigRun_fixed (ops : List SigOp) (s : SigState) (g : SigGlobal)
    (h1 : s.started = true) (h2 : s.stopping = true)
    (h3 : g.timerArmed = false) (h4 : g.handler = s.rollback) :
    sigRun (s, g) ops = (s, g) := by
  induction ops with
  | nil => rfl
  | cons op rest ih =>
    simp only [sigRun, sigStep_fixed s g h1 h2 h3 h4 op]
    exact ih

/-- Claim C10 (confirmed): starting from any freshly constructed
`SignalSampler`, after `start()` then `stop()` every further sequence of
`start()` calls, `stop()` calls and timer interrupts leaves the instance
and the global signal state exactly unchanged — no handler registration,
no timer arming, no further `sample()` — and in the stopped state
`stopping` is set, the timer is disarmed and the previous handler is
restored. -/
theorem claim_c10_permanently_stopped (s0 : SigState) (g0 : SigGlobal)
    (hfresh : s0.started = false) (ops : List SigOp) :
    sigRun (sigStep (sigStep (s0, g0) SigOp.startOp) SigOp.stopOp) ops =
      sigStep (sigStep (s0, g0) SigOp.startOp) SigOp.stopOp ∧
    (sigStep (sigStep (s0, g0) SigOp.startOp) SigOp.stopOp).1.stopping = true ∧
    (sigStep (sigStep (s0, g0) SigOp.startOp) SigOp.stopOp).2.timerArmed = false ∧
    (sigStep (sigStep (s0, g0) SigOp.startOp) SigOp.stopOp).2.handler = g0.handler := by
  have hstop : sigStep (sigStep (s0, g0) SigOp.startOp) SigOp.stopOp =
      ({ s0 with started := true, stopping := true, rollback := g0.handler },
       { handler := g0.handler, timerArmed := false }) := by
    simp [sigStep, sigStart, sigStop, hfresh]
  rw [hstop]
  exact ⟨sigRun_fixed ops _ _ rfl rfl rfl rfl, rfl, rfl, rfl⟩

/-- Witness for claim C10: a concrete stopped instance hit by a further
`start()`, a timer interrupt and a `stop()`. -/
theorem claim_c10_witness :
    sigRun (sigStep (sigStep (sgFresh, gIdle) SigOp.startOp) SigOp.stopOp)
        [SigOp.startOp, SigOp.resampleOp [[{ code := cA, lineno := 1 }]], SigOp.stopOp] =
      sigStep (sigStep (sgFresh, gIdle) SigOp.startOp) SigOp.stopOp :=
  (claim_c10_permanently_stopped sgFresh gIdle rfl
    [SigOp.startOp, SigOp.resampleOp [[{ code := cA, lineno := 1 }]], SigOp.stopOp]).1

/-!  Claim C8: heap lemmas.  -/

theorem alGet_mem {α β : Type} [DecidableEq α] (m : List (α × β)) (k : α) (v : β)
    (h : alGet m k = some v) : (k, v) ∈ m := by
  induction m with
  | nil => simp [alGet] at h
  | cons p t ih =>
    obtain ⟨a, w⟩ := p
    by_cases hak : a = k
    · subst hak
      simp [alGet] at h
      simp [h]
    · simp [alGet, hak] at h
      simp [ih h]

theorem lookupH_append_of_isSome (h l : Heap) (a : Nat)
    (hs : (lookupH h a).isSome) : lookupH (h ++ l) a = lookupH h a := by
  induction h with
  | nil => simp [lookupH] at hs
  | cons p t ih =>
    obtain ⟨b, o⟩ := p
    by_cases hba : b = a
    · simp [lookupH, hba]
    · simp only [lookupH, hba, if_false, List.cons_append] at hs ⊢
      exact ih hs

theorem lookupH_append_none (h l : Heap) (a : Nat)
    (hn : lookupH h a = none) : lookupH (h ++ l) a = lookupH l a := by
  induction h with
  | nil => rfl
  | cons p t ih =>
    obtain ⟨b, o⟩ := p
    by_cases hba : b = a
    · simp [lookupH, hba] at hn
    · simp only [lookupH, hba, if_false] at hn
      simp only [List.cons_append, lookupH, hba, if_false]
      exact ih hn

theorem lookupH_updateH_ne (h : Heap) (k a : Nat) (v : HObj) (hne : a ≠ k) :
    lookupH (updateH h k v) a = lookupH h a := by
  induction h with
  | nil => simp [updateH]
  | cons p t ih =>
    obtain ⟨b, o⟩ := p
    by_cases hbk : b = k
    · subst hbk
      simp [updateH, lookupH, Ne.symm hne]
    · simp only [updateH, hbk, if_false]
      by_cases hba : b = a
      · simp [lookupH, hba]
      · simp only [lookupH, hba, if_false]
        exact ih

theorem lookupH_updateH_self (h : Heap) (k : Nat) (v : HObj)
    (hs : (lookupH h k).isSome) : lookupH (updateH h k v) k = some v := by
  induction h with
  | nil => simp [lookupH] at hs
  | cons p t ih =>
    obtain ⟨b, o⟩ := p
    by_cases hbk : b = k
    · subst hbk
      simp [updateH, lookupH]
    · simp only [lookupH, hbk, if_false] at hs
      simp only [updateH, hbk, if_false, lookupH]
      exact ih hs

theorem lookupH_isSome_lt_freshA (h : Heap) (a : Nat)
    (hs : (lookupH h a).isSome) : a < freshA h := by
  induction h with
  | nil => simp [lookupH] at hs
  | cons p t ih =>
    obtain ⟨b, o⟩ := p
    simp only [freshA, List.map_cons, List.foldr_cons]
    by_cases hba : b = a
    · have h1 : a ≤ Nat.max b ((t.map Prod.fst).foldr Nat.max 0) := by
        rw [← hba]
        exact Nat.le_max_left _ _
      exact Nat.lt_succ_of_le h1
    · simp only [lookupH, hba, if_false] at hs
      have h1 := ih hs
      simp only [freshA] at h1
      exact Nat.lt_succ_of_le
        (le_trans (Nat.lt_succ_iff.mp h1) (Nat.le_max_right _ _))

theorem lookupH_freshA (h : Heap) : lookupH h (freshA h) = none := by
  cases hl : lookupH h (freshA h) with
  | none => rfl
  | some o =>
    have : (lookupH h (freshA h)).isSome := by simp [hl]
    have := lookupH_isSome_lt_freshA h (freshA h) this
    omega

theorem touchRoot_indep (C : List Nat) (g : HAgg) (h : Heap) (rc : CodeObj)
    (ia : Nat) (h2 : Heap) (hI : Indep C g h)
    (ht : touchRoot g h rc = some (ia, h2)) :
    (∀ a ∈ C, lookupH h2 a = lookupH h a) ∧ ia ∉ C ∧ Indep C g h2 := by
  obtain ⟨hC, hr, hs, hrd⟩ := hI
  cases hl : lookupH h g.rootedAddr with
  | none => simp [touchRoot, hl] at ht
  | some o =>
    cases o with
    | innerD m => simp [touchRoot, hl] at ht
    | stackD m => simp [touchRoot, hl] at ht
    | rootedD rd =>
      cases hg : alGet rd rc with
      | some a0 =>
        simp only [touchRoot, hl, hg, Option.some.injEq, Prod.mk.injEq] at ht
        obtain ⟨rfl, rfl⟩ := ht
        exact ⟨fun a _ => rfl,
               hrd rd hl (rc, a0) (alGet_mem rd rc a0 hg),
               hC, hr, hs, hrd⟩
      | none =>
        simp only [touchRoot, hl, hg, Option.some.injEq, Prod.mk.injEq] at ht
        obtain ⟨rfl, rfl⟩ := ht
        have hFC : freshA h ∉ C := by
          intro hmem
          have := hC (freshA h) hmem
          rw [lookupH_freshA] at this
          simp at this
        have hrs : (lookupH h g.rootedAddr).isSome := by simp [hl]
        have hkeep : lookupH (h ++ [(freshA h, HObj.innerD [])]) g.rootedAddr =
            some (HObj.rootedD rd) := by
          rw [lookupH_append_of_isSome h _ g.rootedAddr hrs]
          exact hl
        have hinv : ∀ a ∈ C,
            lookupH (updateH (h ++ [(freshA h, HObj.innerD [])]) g.rootedAddr
              (HObj.rootedD (rd ++ [(rc, freshA h)]))) a = lookupH h a := by
          intro a ha
          rw [lookupH_updateH_ne _ g.rootedAddr a _ (fun he => hr (he ▸ ha))]
          exact lookupH_append_of_isSome h _ a (hC a ha)
        refine ⟨hinv, hFC, fun a ha => by rw [hinv a ha]; exact hC a ha, hr, hs, ?_⟩
        intro rd' hlook p hp
        rw [lookupH_updateH_self _ g.rootedAddr _ (by simp [hkeep])] at hlook
        obtain rfl := (HObj.rootedD.injEq _ _).mp (Option.some.inj hlook)
        rcases List.mem_append.mp hp with hp1 | hp1
        · exact hrd rd hl p hp1
        · simp at hp1
          rw [hp1]
          exact hFC

theorem leafIncr_indep (C : List Nat) (g : HAgg) (h : Heap) (ia : Nat)
    (leaf : CodeObj × Nat) (h3 : Heap) (hI : Indep C g h) (hia : ia ∉ C)
    (hl : leafIncr h ia leaf = some h3) :
    (∀ a ∈ C, lookupH h3 a = lookupH h a) ∧ Indep C g h3 := by
  obtain ⟨hC, hr, hs, hrd⟩ := hI
  cases hlk : lookupH h ia with
  | none => simp [leafIncr, hlk] at hl
  | some o =>
    cases o with
    | rootedD m => simp [leafIncr, hlk] at hl
    | stackD m => simp [leafIncr, hlk] at hl
    | innerD m =>
      simp only [leafIncr, hlk, Option.some.injEq] at hl
      obtain rfl := hl
      have hinv : ∀ a ∈ C,
          lookupH (updateH h ia (HObj.innerD (alIncr m leaf 1))) a = lookupH h a := by
        intro a ha
        exact lookupH_updateH_ne h ia a _ (fun he => hia (he ▸ ha))
      refine ⟨hinv, fun a ha => by rw [hinv a ha]; exact hC a ha, hr, hs, ?_⟩
      intro rd' hlook p hp
      by_cases hir : ia = g.rootedAddr
      · rw [← hir] at hlook
        rw [lookupH_updateH_self h ia _ (by simp [hlk])] at hlook
        simp at hlook
      · rw [lookupH_updateH_ne h ia g.rootedAddr _ (fun he => hir he.symm)] at hlook
        exact hrd rd' hlook p hp

theorem stackIncr_indep (C : List Nat) (g : HAgg) (h : Heap) (key : List StackEl)
    (g' : HAgg) (h4 : Heap) (hI : Indep C g h)
    (hst : stackIncr g h key = some (g', h4)) :
    (∀ a ∈ C, lookupH h4 a = lookupH h a) ∧ Indep C g' h4 := by
  obtain ⟨hC, hr, hs, hrd⟩ := hI
  cases hlk : lookupH h g.stackAddr with
  | none => simp [stackIncr, hlk] at hst
  | some o =>
    cases o with
    | rootedD m => simp [stackIncr, hlk] at hst
    | innerD m => simp [stackIncr, hlk] at hst
    | stackD sd =>
      have hinv : ∀ sd' : List (List StackEl × Nat), ∀ a ∈ C,
          lookupH (updateH h g.stackAddr (HObj.stackD sd')) a = lookupH h a := by
        intro sd' a ha
        exact lookupH_updateH_ne h g.stackAddr a _ (fun he => hs (he ▸ ha))
      have hcond : ∀ sd' : List (List StackEl × Nat), ∀ rd',
          lookupH (updateH h g.stackAddr (HObj.stackD sd')) g.rootedAddr =
            some (HObj.rootedD rd') → ∀ p ∈ rd', p.2 ∉ C := by
        intro sd' rd' hlook p hp
        by_cases hsr : g.stackAddr = g.rootedAddr
        · rw [← hsr] at hlook
          rw [lookupH_updateH_self h g.stackAddr _ (by simp [hlk])] at hlook
          simp at hlook
        · rw [lookupH_updateH_ne h g.stackAddr g.rootedAddr _
              (fun he => hsr he.symm)] at hlook
          exact hrd rd' hlook p hp
      cases hg : alGet sd key with
      | some c =>
        simp only [stackIncr, hlk, hg, Option.some.injEq, Prod.mk.injEq] at hst
        obtain ⟨rfl, rfl⟩ := hst
        exact ⟨hinv _, fun a ha => by rw [hinv _ a ha]; exact hC a ha,
               hr, hs, hcond _⟩
      | none =>
        by_cases hov : sd.length > g.maxStacks
        · simp only [stackIncr, hlk, hg, hov, if_true, Option.some.injEq,
            Prod.mk.injEq] at hst
          obtain ⟨rfl, rfl⟩ := hst
          exact ⟨hinv _, fun a ha => by rw [hinv _ a ha]; exact hC a ha,
                 hr, hs, hcond _⟩
        · simp only [stackIncr, hlk, hg, hov, if_false, Option.some.injEq,
            Prod.mk.injEq] at hst
          obtain ⟨rfl, rfl⟩ := hst
          exact ⟨hinv _, fun a ha => by rw [hinv _ a ha]; exact hC a ha,
                 hr, hs, hcond _⟩

theorem sampleThreadH_indep (C : List Nat) (g : HAgg) (h : Heap) (fs : List Frame)
    (hI : Indep C g h) :
    (∀ a ∈ C, lookupH (sampleThreadH g h fs).2.2 a = lookupH h a) ∧
    Indep C (sampleThreadH g h fs).2.1 (sampleThreadH g h fs).2.2 := by
  match fs with
  | [] => exact ⟨fun a _ => rfl, hI⟩
  | rootF :: rest =>
    cases ht : touchRoot g h rootF.code with
    | none =>
      simp only [sampleThreadH, ht]
      exact ⟨fun a _ => trivial, hI⟩
    | some pr =>
      obtain ⟨ia, h2⟩ := pr
      obtain ⟨hA, hiaC, hI2⟩ := touchRoot_indep C g h rootF.code ia h2 hI ht
      cases hlf : leafIncr h2 ia
          (((rootF :: rest).getLast (List.cons_ne_nil rootF rest)).code,
           ((rootF :: rest).getLast (List.cons_ne_nil rootF rest)).lineno) with
      | none =>
        simp only [sampleThreadH, ht, hlf]
        exact ⟨hA, hI2⟩
      | some h3 =>
        obtain ⟨hB, hI3⟩ := leafIncr_indep C g h2 ia _ h3 hI2 hiaC hlf
        cases hsi : stackIncr g h3 (stackKey (rootF :: rest)) with
        | none =>
          simp only [sampleThreadH, ht, hlf, hsi]
          exact ⟨fun a ha => (hB a ha).trans (hA a ha), hI3⟩
        | some pr2 =>
          obtain ⟨g', h4⟩ := pr2
          obtain ⟨hD, hI4⟩ := stackIncr_indep C g h3 _ g' h4 hI3 hsi
          simp only [sampleThreadH, ht, hlf, hsi]
          exact ⟨fun a ha => ((hD a ha).trans (hB a ha)).trans (hA a ha), hI4⟩

theorem sampleLoopH_indep (snap : List (List Frame)) :
    ∀ (C : List Nat) (g : HAgg) (h : Heap), Indep C g h →
      (∀ a ∈ C, lookupH (sampleLoopH g h snap).2.2 a = lookupH h a) ∧
      Indep C (sampleLoopH g h snap).2.1 (sampleLoopH g h snap).2.2 := by
  induction snap with
  | nil =>
    intro C g h hI
    exact ⟨fun a _ => rfl, hI⟩
  | cons fs rest ih =>
    intro C g h hI
    obtain ⟨hA, hI1⟩ := sampleThreadH_indep C g h fs hI
    cases hst : sampleThreadH g h fs with
    | mk raised pr =>
      obtain ⟨g1, h1⟩ := pr
      rw [hst] at hA hI1
      cases raised with
      | true =>
        simp only [sampleLoopH, hst]
        exact ⟨hA, hI1⟩
      | false =>
        simp only [sampleLoopH, hst]
        obtain ⟨hB, hI2⟩ := ih C g1 h1 hI1
        exact ⟨fun a ha => (hB a ha).trans (hA a ha), hI2⟩

theorem sampleH_indep (C : List Nat) (g : HAgg) (h : Heap)
    (snap : List (List Frame)) (hI : Indep C g h) :
    (∀ a ∈ C, lookupH (sampleH g h snap).2.2 a = lookupH h a) ∧
    Indep C (sampleH g h snap).2.1 (sampleH g h snap).2.2 :=
  sampleLoopH_indep snap C { g with sampleCount := g.sampleCount + 1 } h hI

theorem runSamplesH_indep (snaps : List (List (List Frame))) :
    ∀ (C : List Nat) (g : HAgg) (h : Heap), Indep C g h →
      ∀ a ∈ C, lookupH (runSamplesH g h snaps).2 a = lookupH h a := by
  induction snaps with
  | nil =>
    intro C g h _ a _
    rfl
  | cons sn rest ih =>
    intro C g h hI a ha
    obtain ⟨hA, hI1⟩ := sampleH_indep C g h sn hI
    simp only [runSamplesH]
    exact (ih C _ _ hI1 a ha).trans (hA a ha)

theorem copyInners_spec (rd : List (CodeObj × Nat)) :
    ∀ (h : Heap) (rd' : List (CodeObj × Nat)) (as : List Nat) (h' : Heap),
      copyInners rd h = some (rd', as, h') →
      (∀ a, (lookupH h a).isSome → lookupH h' a = lookupH h a) ∧
      (∀ a ∈ as, (lookupH h' a).isSome ∧ lookupH h a = none) := by
  induction rd with
  | nil =>
    intro h rd' as h' hc
    simp only [copyInners, Option.some.injEq, Prod.mk.injEq] at hc
    obtain ⟨rfl, rfl, rfl⟩ := hc
    exact ⟨fun a _ => rfl, fun a ha => absurd ha (List.not_mem_nil a)⟩
  | cons p t ih =>
    intro h rd' as h' hc
    obtain ⟨k, a0⟩ := p
    cases hlk : lookupH h a0 with
    | none => simp [copyInners, hlk] at hc
    | some o =>
      cases o with
      | rootedD m => simp [copyInners, hlk] at hc
      | stackD m => simp [copyInners, hlk] at hc
      | innerD m =>
        cases hrec : copyInners t (h ++ [(freshA h, HObj.innerD m)]) with
        | none => simp [copyInners, hlk, hrec] at hc
        | some tr =>
          obtain ⟨rd2, as2, h2⟩ := tr
          simp only [copyInners, hlk, hrec, Option.some.injEq, Prod.mk.injEq] at hc
          obtain ⟨rfl, rfl, rfl⟩ := hc
          obtain ⟨ihP1, ihP2⟩ := ih (h ++ [(freshA h, HObj.innerD m)]) rd2 as2 h2 hrec
          constructor
          · intro a hsa
            have h1 : lookupH (h ++ [(freshA h, HObj.innerD m)]) a = lookupH h a :=
              lookupH_append_of_isSome h _ a hsa
            rw [ihP1 a (by rw [h1]; exact hsa), h1]
          · intro a ha
            rcases List.mem_cons.mp ha with h1a | ha2
            · rw [h1a]
              have hn : lookupH h (freshA h) = none := lookupH_freshA h
              have h1 : lookupH (h ++ [(freshA h, HObj.innerD m)]) (freshA h) =
                  some (HObj.innerD m) := by
                rw [lookupH_append_none h _ _ hn]
                simp [lookupH]
              refine ⟨?_, hn⟩
              rw [ihP1 (freshA h) (by simp [h1])]
              simp [h1]
            · obtain ⟨hs2, hn2⟩ := ihP2 a ha2
              refine ⟨hs2, ?_⟩
              cases hha : lookupH h a with
              | none => rfl
              | some o2 =>
                have heq := lookupH_append_of_isSome h
                  [(freshA h, HObj.innerD m)] a (by simp [hha])
                rw [hn2, hha] at heq
                simp at heq

theorem liveDataCopyH_indep (g : HAgg) (h : Heap) (c : CopyOut) (h1 : Heap)
    (hwf : heapWF g h = true) (hc : liveDataCopyH g h = some (c, h1)) :
    Indep (copyAddrs c) g h1 := by
  cases hl : lookupH h g.rootedAddr with
  | none => simp [liveDataCopyH, hl] at hc
  | some o =>
    cases o with
    | innerD m => simp [liveDataCopyH, hl] at hc
    | stackD m => simp [liveDataCopyH, hl] at hc
    | rootedD rd =>
      simp only [heapWF, hl, Bool.and_eq_true] at hwf
      obtain ⟨hwf1, hwf2⟩ := hwf
      cases hlst : lookupH h g.stackAddr with
      | none => rw [hlst] at hwf2; simp at hwf2
      | some o3 =>
        cases o3 with
        | innerD m => rw [hlst] at hwf2; simp at hwf2
        | rootedD m => rw [hlst] at hwf2; simp at hwf2
        | stackD sd0 =>
          cases hci : copyInners rd h with
          | none => simp [liveDataCopyH, hl, hci] at hc
          | some tr =>
            obtain ⟨rd', as, hIn⟩ := tr
            obtain ⟨hP1, hP2⟩ := copyInners_spec rd h rd' as hIn hci
            cases hls : lookupH (hIn ++ [(freshA hIn, HObj.rootedD rd')])
                g.stackAddr with
            | none => simp [liveDataCopyH, hl, hci, hls] at hc
            | some o2 =>
              cases o2 with
              | innerD m => simp [liveDataCopyH, hl, hci, hls] at hc
              | rootedD m => simp [liveDataCopyH, hl, hci, hls] at hc
              | stackD sd =>
                simp only [liveDataCopyH, hl, hci, hls, Option.some.injEq,
                  Prod.mk.injEq] at hc
                obtain ⟨rfl, rfl⟩ := hc
                -- abbreviations for the three copy heaps
                have hkeep2 : ∀ a, (lookupH h a).isSome →
                    lookupH (hIn ++ [(freshA hIn, HObj.rootedD rd')]) a =
                      lookupH h a := by
                  intro a hsa
                  have e1 := hP1 a hsa
                  have s1 : (lookupH hIn a).isSome := by rw [e1]; exact hsa
                  rw [lookupH_append_of_isSome hIn _ a s1, e1]
                have hkeep3 : ∀ a, (lookupH h a).isSome →
                    lookupH ((hIn ++ [(freshA hIn, HObj.rootedD rd')]) ++
                      [(freshA (hIn ++ [(freshA hIn, HObj.rootedD rd')]),
                        HObj.stackD sd)]) a = lookupH h a := by
                  intro a hsa
                  have e2 := hkeep2 a hsa
                  have s2 : (lookupH (hIn ++ [(freshA hIn, HObj.rootedD rd')]) a).isSome := by
                    rw [e2]; exact hsa
                  rw [lookupH_append_of_isSome _ _ a s2, e2]
                have hnotC : ∀ a, (lookupH h a).isSome →
                    a ∉ copyAddrs
                      { rootedCopyAddr := freshA hIn, innerCopyAddrs := as,
                        stackCopyAddr :=
                          freshA (hIn ++ [(freshA hIn, HObj.rootedD rd')]) } := by
                  intro a hsa hmem
                  simp only [copyAddrs, List.mem_cons] at hmem
                  rcases hmem with h1 | h1 | hmem
                  · have s1 : (lookupH hIn a).isSome := by
                      rw [hP1 a hsa]; exact hsa
                    rw [h1, lookupH_freshA hIn] at s1
                    simp at s1
                  · have s2 : (lookupH (hIn ++ [(freshA hIn, HObj.rootedD rd')]) a).isSome := by
                      rw [hkeep2 a hsa]; exact hsa
                    rw [h1, lookupH_freshA] at s2
                    simp at s2
                  · obtain ⟨-, hn⟩ := hP2 a hmem
                    rw [hn] at hsa
                    simp at hsa
                refine ⟨?_, ?_, ?_, ?_⟩
                · -- every copy address is allocated in the final heap
                  intro a ha
                  simp only [copyAddrs, List.mem_cons] at ha
                  rcases ha with h1 | h1 | hmem
                  · rw [h1]
                    have hn : lookupH hIn (freshA hIn) = none := lookupH_freshA hIn
                    have e1 : lookupH (hIn ++ [(freshA hIn, HObj.rootedD rd')])
                        (freshA hIn) = some (HObj.rootedD rd') := by
                      rw [lookupH_append_none hIn _ _ hn]
                      simp [lookupH]
                    rw [lookupH_append_of_isSome _ _ _ (by simp [e1]), e1]
                    simp
                  · rw [h1]
                    rw [lookupH_append_none _ _ _ (lookupH_freshA _)]
                    simp [lookupH]
                  · obtain ⟨hs2, -⟩ := hP2 a hmem
                    have e1 : lookupH (hIn ++ [(freshA hIn, HObj.rootedD rd')]) a =
                        lookupH hIn a := lookupH_append_of_isSome hIn _ a hs2
                    have s2 : (lookupH (hIn ++ [(freshA hIn, HObj.rootedD rd')]) a).isSome := by
                      rw [e1]; exact hs2
                    rw [lookupH_append_of_isSome _ _ a s2, e1]
                    exact hs2
                · exact hnotC g.rootedAddr (by simp [hl])
                · exact hnotC g.stackAddr (by simp [hlst])
                · intro rd0 hlook p hp
                  rw [hkeep3 g.rootedAddr (by simp [hl]), hl] at hlook
                  obtain rfl := (HObj.rootedD.injEq _ _).mp (Option.some.inj hlook)
                  have hall := (List.all_eq_true.mp hwf1) p hp
                  cases hpl : lookupH h p.2 with
                  | none => rw [hpl] at hall; simp at hall
                  | some o4 =>
                    cases o4 with
                    | rootedD m => rw [hpl] at hall; simp at hall
                    | stackD m => rw [hpl] at hall; simp at hall
                    | innerD m => exact hnotC p.2 (by simp [hpl])

/-- Claim C8 (confirmed): the objects returned by `live_data_copy()` are
independent of further mutation — after the copy, any sequence of
`sample()` calls leaves every copied cell (the copied rooted table, every
copied inner table and the copied stack table) exactly as it was at the
copy. -/
theorem claim_c8_copy_independent (g : HAgg) (h : Heap) (c : CopyOut) (h1 : Heap)
    (hwf : heapWF g h = true) (hc : liveDataCopyH g h = some (c, h1))
    (snaps : List (List (List Frame))) :
    ∀ a ∈ copyAddrs c, lookupH (runSamplesH g h1 snaps).2 a = lookupH h1 a := by
  have hI := liveDataCopyH_indep g h c h1 hwf hc
  exact fun a ha => runSamplesH_indep snaps (copyAddrs c) g h1 hI a ha

/-- Witness for claim C8 at a concrete heap and one further sample. -/
theorem claim_c8_witness :
    lookupH (runSamplesH g0c8 h1c8 [[[{ code := cA, lineno := 9 }]]]).2 5 =
      lookupH h1c8 5 :=
  claim_c8_copy_independent g0c8 h0c8 c8out h1c8 (by decide) (by decide)
    [[[{ code := cA, lineno := 9 }]]] 5 (by decide)

/-- Reading of the boolean `keyFromSnap`: it holds exactly when the key is
the stack key of some nonempty stack of the snapshot. -/
theorem keyFromSnap_iff (snap : List (List Frame)) (k : List StackEl) :
    keyFromSnap snap k = true ↔ ∃ fs ∈ snap, fs ≠ [] ∧ k = stackKey fs := by
  simp [keyFromSnap, List.any_eq_true, List.isEmpty_eq_false]
